import Mathlib

/-!
Verification of the mcnbt schematic codec and canonicalization layer.

The Go source is shallowly embedded: pure functions become Lean functions,
Go loops become folds over `List.range`-style index lists, Go `int`/`int64`
become `Int`/`Nat` (palette indices and byte values are nonnegative machine
integers and are embedded as `Nat`; where a loop bound can be negative the
iteration count is `Int.toNat` of it, matching a Go `for` loop that runs
zero times on a negative bound), and Go slices become `List`s.  Writes into
a slice become `List.set`, reads `List.getD` (Go reads are always in range
where the code touched below performs them; `getD` with default 0 agrees
with the source on that range).
-/

/-- Dimensions of a structure (Go `StandardSize`, three `int` fields). -/
structure StandardSize where
  X : Int
  Y : Int
  Z : Int
deriving DecidableEq, Repr

/-- The `bitsPerBlock` search loop inside `EncodeLitematicaBlockStates`:
`bitsPerBlock := 1; for (1 << bitsPerBlock) <= maxState { bitsPerBlock++ }`.
`1 << b` is written `2 ^ b`. -/
def bitsLoop (maxState b : Nat) : Nat :=
  if 2 ^ b ≤ maxState then bitsLoop maxState (b + 1) else b
termination_by maxState + 1 - 2 ^ b
decreasing_by
  exact Nat.sub_lt_sub_left (Nat.lt_succ_of_le (by assumption))
    (Nat.pow_lt_pow_succ (by decide))

/-- The clamp after the search loop: at least 2, at most 8 bits per block. -/
def clampBits (b : Nat) : Nat :=
  if b < 2 then 2 else if b > 8 then 8 else b

/-- The `maxState` scan at the top of `EncodeLitematicaBlockStates`. -/
def maxStateOf (blockStates : List Nat) : Nat :=
  blockStates.foldl (fun maxState state => if state > maxState then state else maxState) 0

/-- The bit width `EncodeLitematicaBlockStates` derives from the data
(factored out so that the unpacking direction can recompute it). -/
def litBitsPerBlock (blockStates : List Nat) : Nat :=
  clampBits (bitsLoop (maxStateOf blockStates) 1)

/-- Iteration of a Go `for i := 0; i < n; i++` loop body over a state:
`iterFold f n a` applies `f 0` first and `f (n-1)` last. -/
def iterFold {α : Type} (f : Nat → α → α) : Nat → α → α
  | 0, init => init
  | n + 1, init => f n (iterFold f n init)

/-- One iteration of the packing loop of `EncodeLitematicaBlockStates`:
`result[i/blocksPerLong] |= state << ((i % blocksPerLong) * bitsPerBlock)`. -/
def packStep (vals : Nat → Nat) (bitsPerBlock blocksPerLong : Nat)
    (i : Nat) (result : List Nat) : List Nat :=
  result.set (i / blocksPerLong)
    (result.getD (i / blocksPerLong) 0 |||
      vals i <<< ((i % blocksPerLong) * bitsPerBlock))

/-- `EncodeLitematicaBlockStates(blockStates []int64, size StandardSize) []int64`.
The packed 64-bit words are embedded as `Nat`: every OR writes a value
`state << bitOffset` with `state ≤ mask < 2^bitsPerBlock` and
`bitOffset + bitsPerBlock ≤ blocksPerLong * bitsPerBlock ≤ 64`, so the
int64 arithmetic of the source never wraps and the `Nat` value is the
exact bit pattern of the word. -/
def EncodeLitematicaBlockStates (blockStates : List Nat) (size : StandardSize) : List Nat :=
  let bitsPerBlock := litBitsPerBlock blockStates
  let blocksPerLong := 64 / bitsPerBlock
  let totalBlocks := (size.X * size.Y * size.Z).toNat
  let numLongs := (totalBlocks + blocksPerLong - 1) / blocksPerLong
  let mask := (1 <<< bitsPerBlock) - 1
  iterFold
    (packStep
      (fun i => if i < blockStates.length then blockStates.getD i 0 &&& mask else 0)
      bitsPerBlock blocksPerLong)
    totalBlocks (List.replicate numLongs 0)

/-- Read-and-mask extraction of entry `i` from a packed word array. -/
def extractEntry (words : List Nat) (bitsPerBlock blocksPerLong i : Nat) : Nat :=
  (words.getD (i / blocksPerLong) 0 >>> ((i % blocksPerLong) * bitsPerBlock)) &&&
    ((1 <<< bitsPerBlock) - 1)

/-- Modelled from the spec: the repository has no unpacking decoder for
bit-packed Litematica `BlockStates` (the decode path reads `BlockStates[i]`
directly), so the decode direction of the bit-packed codec is taken from the
spec's words: "entry `i` lives in word `i / entriesPerWord` at bit offset
`(i % entriesPerWord) * bitsPerBlock`, masked to `bitsPerBlock` bits";
"Decode: read-and-mask". -/
def decodeLitematicaEntry (words : List Nat) (bitsPerBlock i : Nat) : Nat :=
  extractEntry words bitsPerBlock (64 / bitsPerBlock) i

theorem lt_two_pow_bitsLoop (m b : Nat) : m < 2 ^ bitsLoop m b := by
  rw [bitsLoop]
  split
  · exact lt_two_pow_bitsLoop m (b + 1)
  · omega
termination_by m + 1 - 2 ^ b
decreasing_by
  exact Nat.sub_lt_sub_left (Nat.lt_succ_of_le (by assumption))
    (Nat.pow_lt_pow_succ (by decide))

theorem bitsLoop_le (m b k : Nat) (hb : b ≤ k) (hm : m < 2 ^ k) : bitsLoop m b ≤ k := by
  rw [bitsLoop]
  split
  · refine bitsLoop_le m (b + 1) k ?_ hm
    have h1 : (2 : Nat) ^ b < 2 ^ k := Nat.lt_of_le_of_lt (by assumption) hm
    have h2 : b < k := (Nat.pow_lt_pow_iff_right (by decide)).mp h1
    omega
  · exact hb
termination_by m + 1 - 2 ^ b
decreasing_by
  exact Nat.sub_lt_sub_left (Nat.lt_succ_of_le (by assumption))
    (Nat.pow_lt_pow_succ (by decide))

theorem clampBits_bounds (b : Nat) : 2 ≤ clampBits b ∧ clampBits b ≤ 8 := by
  unfold clampBits
  split
  · omega
  · split <;> omega

theorem lt_two_pow_clampBits (m : Nat) (hm : m < 256) :
    m < 2 ^ clampBits (bitsLoop m 1) := by
  have h8 : bitsLoop m 1 ≤ 8 := bitsLoop_le m 1 8 (by omega) (by norm_num at hm ⊢; omega)
  have hlt : m < 2 ^ bitsLoop m 1 := lt_two_pow_bitsLoop m 1
  unfold clampBits
  split
  · calc m < 2 ^ bitsLoop m 1 := hlt
      _ ≤ 2 ^ 2 := Nat.pow_le_pow_right (by decide) (by omega)
  · split
    · omega
    · exact hlt

theorem foldl_max_ge_init (bs : List Nat) (a : Nat) :
    a ≤ bs.foldl (fun maxState state => if state > maxState then state else maxState) a := by
  induction bs generalizing a with
  | nil => exact Nat.le_refl a
  | cons hd tl ih =>
    refine Nat.le_trans ?_ (ih (if hd > a then hd else a))
    split <;> omega

theorem le_foldl_max (bs : List Nat) (v : Nat) (hv : v ∈ bs) (a : Nat) :
    v ≤ bs.foldl (fun maxState state => if state > maxState then state else maxState) a := by
  induction bs generalizing a with
  | nil => cases hv
  | cons hd tl ih =>
    rw [List.foldl_cons]
    rcases List.mem_cons.mp hv with h | h
    · subst h
      refine Nat.le_trans ?_ (foldl_max_ge_init tl (if v > a then v else a))
      split <;> omega
    · exact ih h _

theorem le_maxStateOf (bs : List Nat) (v : Nat) (hv : v ∈ bs) : v ≤ maxStateOf bs :=
  le_foldl_max bs v hv 0

theorem foldl_max_lt (bs : List Nat) (c : Nat) (h : ∀ v ∈ bs, v < c) (a : Nat)
    (hac : a < c) :
    bs.foldl (fun maxState state => if state > maxState then state else maxState) a < c := by
  induction bs generalizing a with
  | nil => exact hac
  | cons hd tl ih =>
    rw [List.foldl_cons]
    refine ih (fun v hv => h v (List.mem_cons_of_mem hd hv)) _ ?_
    have := h hd (List.mem_cons_self hd tl)
    split <;> omega

theorem maxStateOf_lt (bs : List Nat) (c : Nat) (hc : 0 < c)
    (h : ∀ v ∈ bs, v < c) : maxStateOf bs < c :=
  foldl_max_lt bs c h 0 hc

theorem getD_set_self (l : List Nat) (n a : Nat) (h : n < l.length) :
    (l.set n a).getD n 0 = a := by
  simp [List.getD_eq_getElem?_getD, List.getElem?_set, h]

theorem getD_set_ne (l : List Nat) (n m a : Nat) (h : n ≠ m) :
    (l.set n a).getD m 0 = l.getD m 0 := by
  simp [List.getD_eq_getElem?_getD, List.getElem?_set, h]

theorem getD_replicate_zero (n j : Nat) : (List.replicate n (0 : Nat)).getD j 0 = 0 := by
  rcases Nat.lt_or_ge j n with h | h
  · simp [List.getD_eq_getElem?_getD, List.getElem?_replicate, h]
  · have hn : ¬ j < n := by omega
    simp [List.getD_eq_getElem?_getD, List.getElem?_replicate, hn]

theorem iterFold_packStep_length (vals : Nat → Nat) (bpb bpl : Nat) (init : List Nat)
    (k : Nat) : (iterFold (packStep vals bpb bpl) k init).length = init.length := by
  induction k with
  | zero => rfl
  | succ k ih => simpa [iterFold, packStep, List.length_set] using ih

theorem mod_lt_of_div_eq_of_lt (bpl i k : Nat) (hbpl : 0 < bpl) (hik : i < k)
    (hdiv : i / bpl = k / bpl) : i % bpl < k % bpl := by
  have h1 := Nat.div_add_mod i bpl
  have h2 := Nat.div_add_mod k bpl
  rw [hdiv] at h1
  omega

theorem off_add_le_off (bpl bpb i k : Nat) (h : i % bpl < k % bpl) :
    (i % bpl) * bpb + bpb ≤ (k % bpl) * bpb := by
  have h1 : (i % bpl + 1) * bpb ≤ (k % bpl) * bpb := Nat.mul_le_mul_right bpb (by omega)
  have h2 : (i % bpl + 1) * bpb = (i % bpl) * bpb + bpb := Nat.succ_mul _ _
  omega

theorem pack_invariant (vals : Nat → Nat) (bpb bpl numLongs : Nat)
    (hbpl : 0 < bpl) (hvals : ∀ i, vals i < 2 ^ bpb) (k : Nat) :
    (∀ i, k ≤ i →
      (iterFold (packStep vals bpb bpl) k (List.replicate numLongs 0)).getD (i / bpl) 0 <
        2 ^ ((i % bpl) * bpb)) ∧
    (∀ i, i < k → i / bpl < numLongs →
      extractEntry (iterFold (packStep vals bpb bpl) k (List.replicate numLongs 0)) bpb bpl i =
        vals i) := by
  induction k with
  | zero =>
    constructor
    · intro i _
      simpa [iterFold, getD_replicate_zero] using Nat.two_pow_pos ((i % bpl) * bpb)
    · intro i h
      omega
  | succ k ih =>
    obtain ⟨ihclean, ihok⟩ := ih
    have hlen := iterFold_packStep_length vals bpb bpl (List.replicate numLongs 0) k
    rw [List.length_replicate] at hlen
    simp only [iterFold]
    set W := iterFold (packStep vals bpb bpl) k (List.replicate numLongs 0) with hWdef
    set t := vals k <<< ((k % bpl) * bpb) with htdef
    have hw : W.getD (k / bpl) 0 < 2 ^ ((k % bpl) * bpb) := ihclean k (Nat.le_refl k)
    have hstep : packStep vals bpb bpl k W =
        W.set (k / bpl) (W.getD (k / bpl) 0 ||| t) := rfl
    rw [hstep]
    have htlt : t < 2 ^ ((k % bpl) * bpb + bpb) := by
      rw [htdef, Nat.shiftLeft_eq]
      calc vals k * 2 ^ ((k % bpl) * bpb) < 2 ^ bpb * 2 ^ ((k % bpl) * bpb) :=
            (Nat.mul_lt_mul_right (Nat.two_pow_pos _)).mpr (hvals k)
        _ = 2 ^ ((k % bpl) * bpb + bpb) := by rw [← Nat.pow_add, Nat.add_comm]
    have hor : W.getD (k / bpl) 0 ||| t < 2 ^ ((k % bpl) * bpb + bpb) :=
      Nat.or_lt_two_pow
        (Nat.lt_of_lt_of_le hw (Nat.pow_le_pow_right (by decide) (Nat.le_add_right _ _)))
        htlt
    constructor
    · intro i hi
      by_cases hji : i / bpl = k / bpl
      · by_cases hjlen : k / bpl < numLongs
        · rw [hji, getD_set_self _ _ _ (by rw [hlen]; exact hjlen)]
          have hmod : k % bpl < i % bpl :=
            mod_lt_of_div_eq_of_lt bpl k i hbpl (by omega) hji.symm
          exact Nat.lt_of_lt_of_le hor
            (Nat.pow_le_pow_right (by decide) (off_add_le_off bpl bpb k i hmod))
        · rw [List.set_eq_of_length_le (by rw [hlen]; omega)]
          exact ihclean i (by omega)
      · rw [getD_set_ne _ _ _ _ (fun h => hji h.symm)]
        exact ihclean i (by omega)
    · intro i hi hilen
      rcases Nat.lt_or_ge i k with hik | hik
      · by_cases hji : i / bpl = k / bpl
        · have hmod : i % bpl < k % bpl := mod_lt_of_div_eq_of_lt bpl i k hbpl hik hji
          have hoff : (i % bpl) * bpb + bpb ≤ (k % bpl) * bpb :=
            off_add_le_off bpl bpb i k hmod
          have hW : (W.set (k / bpl) (W.getD (k / bpl) 0 ||| t)).getD (i / bpl) 0 =
              W.getD (k / bpl) 0 ||| t := by
            rw [hji]
            exact getD_set_self _ _ _ (by rw [hlen, ← hji]; exact hilen)
          have hsame : extractEntry (W.set (k / bpl) (W.getD (k / bpl) 0 ||| t)) bpb bpl i =
              extractEntry W bpb bpl i := by
            unfold extractEntry
            rw [hW, hji]
            apply Nat.eq_of_testBit_eq
            intro s
            simp only [Nat.testBit_and, Nat.testBit_shiftRight, Nat.one_shiftLeft,
              Nat.testBit_two_pow_sub_one, Nat.testBit_or]
            by_cases hs : s < bpb
            · have htb : t.testBit ((i % bpl) * bpb + s) = false := by
                rw [htdef, Nat.testBit_shiftLeft]
                have hne : ¬ ((i % bpl) * bpb + s ≥ (k % bpl) * bpb) := by omega
                simp [hne]
              rw [htb]
              simp
            · simp [hs]
          rw [hsame]
          exact ihok i hik hilen
        · have hsame : extractEntry (W.set (k / bpl) (W.getD (k / bpl) 0 ||| t)) bpb bpl i =
              extractEntry W bpb bpl i := by
            unfold extractEntry
            rw [getD_set_ne _ _ _ _ (fun h => hji h.symm)]
          rw [hsame]
          exact ihok i hik hilen
      · have hik' : i = k := by omega
        subst hik'
        have hW : (W.set (i / bpl) (W.getD (i / bpl) 0 ||| t)).getD (i / bpl) 0 =
            W.getD (i / bpl) 0 ||| t :=
          getD_set_self _ _ _ (by rw [hlen]; exact hilen)
        unfold extractEntry
        rw [hW]
        apply Nat.eq_of_testBit_eq
        intro s
        simp only [Nat.testBit_and, Nat.testBit_shiftRight, Nat.one_shiftLeft,
          Nat.testBit_two_pow_sub_one, Nat.testBit_or]
        by_cases hs : s < bpb
        · have hwbit : (W.getD (i / bpl) 0).testBit ((i % bpl) * bpb + s) = false :=
            Nat.testBit_lt_two_pow
              (Nat.lt_of_lt_of_le hw (Nat.pow_le_pow_right (by decide) (Nat.le_add_right _ _)))
          have htbit : t.testBit ((i % bpl) * bpb + s) = (vals i).testBit s := by
            rw [htdef, Nat.testBit_shiftLeft]
            have hge : (i % bpl) * bpb + s ≥ (i % bpl) * bpb := Nat.le_add_right _ _
            simp [hge]
          rw [hwbit, htbit]
          simp [hs]
        · have hvb : (vals i).testBit s = false :=
            Nat.testBit_lt_two_pow
              (Nat.lt_of_lt_of_le (hvals i) (Nat.pow_le_pow_right (by decide) (by omega)))
          simp [hs, hvb]

theorem div_lt_numLongs (i total bpl : Nat) (hbpl : 0 < bpl) (hi : i < total) :
    i / bpl < (total + bpl - 1) / bpl := by
  rw [Nat.div_lt_iff_lt_mul hbpl]
  have h1 := Nat.div_add_mod (total + bpl - 1) bpl
  have h2 : (total + bpl - 1) % bpl < bpl := Nat.mod_lt _ hbpl
  have h3 : bpl * ((total + bpl - 1) / bpl) = ((total + bpl - 1) / bpl) * bpl :=
    Nat.mul_comm _ _
  omega

/-- Claim C1: for a list of palette indices that all fit in 8 bits (so that the
computed `bitsPerBlock = max(2, ceil(log2(maxIndex+1)))` lies between 2 and 8),
packing with `EncodeLitematicaBlockStates` — `floor(64/bitsPerBlock)` entries
per 64-bit word, entry `i` in word `i / entriesPerWord` at bit offset
`(i % entriesPerWord) * bitsPerBlock`, masked, never spanning a word
boundary — and then unpacking entry `i` by read-and-mask at the same offset
reproduces the original index, for every entry inside the declared volume,
including when the volume is not a multiple of entries-per-word. -/
theorem encodeLitematicaBlockStates_roundTrip (blockStates : List Nat)
    (size : StandardSize) (hvals : ∀ v ∈ blockStates, v < 256) (i : Nat)
    (hi : i < blockStates.length) (htot : i < (size.X * size.Y * size.Z).toNat) :
    decodeLitematicaEntry (EncodeLitematicaBlockStates blockStates size)
      (litBitsPerBlock blockStates) i = blockStates.getD i 0 := by
  have hbounds := clampBits_bounds (bitsLoop (maxStateOf blockStates) 1)
  have hbpb2 : 2 ≤ litBitsPerBlock blockStates := hbounds.1
  have hbpb8 : litBitsPerBlock blockStates ≤ 8 := hbounds.2
  set bpb := litBitsPerBlock blockStates with hbpbdef
  set bpl := 64 / bpb with hbpldef
  have hbpl : 0 < bpl := Nat.div_pos (by omega) (by omega)
  set total := (size.X * size.Y * size.Z).toNat with htotaldef
  set numLongs := (total + bpl - 1) / bpl with hnldef
  set mask := (1 <<< bpb) - 1 with hmaskdef
  set vals : Nat → Nat :=
    fun j => if j < blockStates.length then blockStates.getD j 0 &&& mask else 0 with hvalsdef
  have hvlt : ∀ j, vals j < 2 ^ bpb := by
    intro j
    have h2 : mask < 2 ^ bpb := by
      rw [hmaskdef, Nat.one_shiftLeft]
      have := Nat.two_pow_pos bpb
      omega
    by_cases hj : j < blockStates.length
    · have hv : vals j = blockStates.getD j 0 &&& mask := by rw [hvalsdef]; simp [hj]
      have h1 : blockStates.getD j 0 &&& mask ≤ mask := Nat.and_le_right
      omega
    · have hv : vals j = 0 := by rw [hvalsdef]; simp [hj]
      rw [hv]
      exact Nat.two_pow_pos bpb
  have henc : EncodeLitematicaBlockStates blockStates size =
      iterFold (packStep vals bpb bpl) total (List.replicate numLongs 0) := rfl
  have hinv := (pack_invariant vals bpb bpl numLongs hbpl hvlt total).2 i htot
    (div_lt_numLongs i total bpl hbpl htot)
  have hdec : decodeLitematicaEntry (EncodeLitematicaBlockStates blockStates size) bpb i =
      extractEntry (iterFold (packStep vals bpb bpl) total (List.replicate numLongs 0))
        bpb bpl i := by rw [henc]; rfl
  rw [hdec, hinv, hvalsdef]
  simp only [hi, if_pos]
  have hmem : blockStates.getD i 0 ∈ blockStates := by
    rw [List.getD_eq_getElem blockStates 0 hi]
    exact List.getElem_mem hi
  have hlt : blockStates.getD i 0 < 2 ^ bpb := by
    have h1 : blockStates.getD i 0 ≤ maxStateOf blockStates :=
      le_maxStateOf blockStates _ hmem
    have h2 : maxStateOf blockStates < 256 :=
      maxStateOf_lt blockStates 256 (by decide) hvals
    have h3 : maxStateOf blockStates < 2 ^ bpb := by
      rw [hbpbdef]
      exact lt_two_pow_clampBits _ h2
    omega
  rw [hmaskdef, Nat.one_shiftLeft]
  exact Nat.and_pow_two_sub_one_of_lt_two_pow hlt

/-- Witness for C1 at a concrete input: five entries, bit width 3,
21 entries per word, volume 5 not a multiple of 21. -/
theorem encodeLitematicaBlockStates_roundTrip_witness :
    (∀ v ∈ [1, 2, 3, 0, 5], v < 256) ∧
      decodeLitematicaEntry
        (EncodeLitematicaBlockStates [1, 2, 3, 0, 5] ⟨5, 1, 1⟩)
        (litBitsPerBlock [1, 2, 3, 0, 5]) 2 = [1, 2, 3, 0, 5].getD 2 0 :=
  ⟨by decide,
    encodeLitematicaBlockStates_roundTrip [1, 2, 3, 0, 5] ⟨5, 1, 1⟩ (by decide) 2
      (by decide) (by decide)⟩

/-- A block position in the canonical model (`StandardBlockPosition`).  The
source stores `float64` coordinates but every value written on the paths
below is a converted machine integer, embedded as `Int`. -/
structure Pos3 where
  X : Int
  Y : Int
  Z : Int
deriving DecidableEq, Repr

/-- The index-to-position computation of `convertLitematicaToStandard`:
`x := i % Size.X; y := (i / Size.X) % Size.Y; z := i / (Size.X * Size.Y)`.
On the loop's domain (`0 ≤ i < totalVolume`, positive sizes) the Go `int`
arithmetic agrees with `Nat` arithmetic. -/
def litDecodePos (sizeX sizeY i : Nat) : Pos3 :=
  ⟨(i % sizeX : Nat), ((i / sizeX) % sizeY : Nat), (i / (sizeX * sizeY) : Nat)⟩

/-- Modelled from the spec, for comparison with `litDecodePos`: the claimed
mapping "x = i % sizeX, z = (i / sizeX) % sizeZ, y = i / (sizeX*sizeZ)". -/
def specLitDecodePos (sizeX sizeZ i : Nat) : Pos3 :=
  ⟨(i % sizeX : Nat), (i / (sizeX * sizeZ) : Nat), ((i / sizeX) % sizeZ : Nat)⟩

/-- The grid-to-`BlockStates` linearization loop of
`convertStandardToLitematica`: `for x { for z { for y { blockStates[index] =
grid[x][y][z]; index++ } } }`. -/
def litEncodeStates (grid : Nat → Nat → Nat → Nat) (sizeX sizeY sizeZ : Nat) : List Nat :=
  (List.range sizeX).flatMap fun x =>
    (List.range sizeZ).flatMap fun z =>
      (List.range sizeY).map fun y => grid x y z

theorem flatMap_uniform_getD {α : Type} (f : α → List Nat) (c : Nat) (l : List α)
    (hf : ∀ x ∈ l, (f x).length = c) (a b : Nat) (ha : a < l.length) (hb : b < c) :
    (l.flatMap f).getD (a * c + b) 0 = (f (l.get ⟨a, ha⟩)).getD b 0 := by
  induction l generalizing a with
  | nil => simp at ha
  | cons hd tl ih =>
    rw [List.flatMap_cons]
    cases a with
    | zero =>
      have hhd : (f hd).length = c := hf hd (List.mem_cons_self hd tl)
      simp only [Nat.zero_mul, Nat.zero_add]
      rw [List.getD_eq_getElem?_getD, List.getElem?_append_left (by omega),
        ← List.getD_eq_getElem?_getD]
      rfl
    | succ a =>
      have hhd : (f hd).length = c := hf hd (List.mem_cons_self hd tl)
      have hidx : (a + 1) * c + b = c + (a * c + b) := by ring
      rw [List.getD_eq_getElem?_getD, hidx,
        List.getElem?_append_right (by omega),
        show c + (a * c + b) - (f hd).length = a * c + b by omega,
        ← List.getD_eq_getElem?_getD]
      exact ih (fun x hx => hf x (List.mem_cons_of_mem hd hx)) a (by simpa using ha)

theorem range_flatMap_uniform_getD (f : Nat → List Nat) (c : Nat) (n : Nat)
    (hf : ∀ x, (f x).length = c) (a b : Nat) (ha : a < n) (hb : b < c) :
    ((List.range n).flatMap f).getD (a * c + b) 0 = (f a).getD b 0 := by
  have h := flatMap_uniform_getD f c (List.range n) (fun x _ => hf x) a b
    (by simpa using ha) hb
  simpa using h

theorem range_map_getD (g : Nat → Nat) (n m : Nat) (hm : m < n) :
    ((List.range n).map g).getD m 0 = g m := by
  rw [List.getD_eq_getElem?_getD, List.getElem?_map, List.getElem?_range hm]
  rfl

theorem litEncodeStates_getD (grid : Nat → Nat → Nat → Nat) (X Y Z x y z : Nat)
    (hx : x < X) (hy : y < Y) (hz : z < Z) :
    (litEncodeStates grid X Y Z).getD ((x * Z + z) * Y + y) 0 = grid x y z := by
  unfold litEncodeStates
  have hidx : (x * Z + z) * Y + y = x * (Z * Y) + (z * Y + y) := by ring
  have hinnerlen : ∀ w : Nat,
      ((List.range Z).flatMap fun zz => (List.range Y).map fun yy => grid w yy zz).length =
        Z * Y := by
    intro w
    rw [List.length_flatMap]
    have : (List.map (List.length ∘ fun zz => (List.range Y).map fun yy => grid w yy zz)
        (List.range Z)) = List.map (fun _ => Y) (List.range Z) := by
      apply List.map_congr_left
      intro zz _
      simp
    rw [this]
    rw [List.map_const']
    simp [List.sum_replicate, Nat.mul_comm]
  have hzy : z * Y + y < Z * Y := by
    have h0 : (z + 1) * Y = z * Y + Y := by ring
    have h2 : (z + 1) * Y ≤ Z * Y := Nat.mul_le_mul_right Y (by omega)
    omega
  rw [hidx, range_flatMap_uniform_getD _ (Z * Y) X hinnerlen x (z * Y + y) hx hzy,
    range_flatMap_uniform_getD _ Y Z (fun _ => by simp) z y hz hy,
    range_map_getD _ Y y hy]

/-- Grid used in the claim C2 counterexample: cell values encode their
coordinates, `grid x y z = x + 10*y + 100*z`. -/
def gridC2 (x y z : Nat) : Nat := x + 10 * y + 100 * z

/-- Claim C2 counterexample.  At region size 2×3×5 and linear index 2 the
code decodes position (x,y,z) = (0,1,0) (`litDecodePos`), not the claimed
(0,0,1) (`specLitDecodePos`); and the encode loop writes `grid[0][2][0]`
(the value 20) to `BlockStates[2]`, not the grid value at the claimed decode
position (0,0,1) of index 2 (the value 100), so the encode direction is not
the inverse of the claimed linearization either. -/
theorem litematicaLinearization_counterexample :
    litDecodePos 2 3 2 ≠ specLitDecodePos 2 5 2 ∧
    (litEncodeStates gridC2 2 3 5).getD 2 0 = gridC2 0 2 0 ∧
    (litEncodeStates gridC2 2 3 5).getD 2 0 ≠ gridC2 0 0 1 := by
  refine ⟨by decide, by decide, by decide⟩

/-- Claim C2 (amended): in `convertLitematicaToStandard` the decoded block
position of linear index `i` is x = i % sizeX, y = (i / sizeX) % sizeY,
z = i / (sizeX * sizeY) — X varies fastest, then Y, then Z, so cell (x,y,z)
corresponds to index x + sizeX*y + sizeX*sizeY*z — while
`convertStandardToLitematica` writes grid[x][y][z] to 1D index
(x*sizeZ + z)*sizeY + y (Y fastest, then Z, then X), which is not the
inverse of the decode linearization. -/
theorem decode3 (A B x u v : Nat) (hx : x < A) (hu : u < B) :
    (x + A * u + A * B * v) % A = x ∧ ((x + A * u + A * B * v) / A) % B = u ∧
      (x + A * u + A * B * v) / (A * B) = v := by
  have hA : 0 < A := by omega
  have hAB : 0 < A * B := Nat.mul_pos hA (by omega)
  have e0 : x + A * u + A * B * v = x + A * (u + B * v) := by ring
  refine ⟨?_, ?_, ?_⟩
  · rw [e0, Nat.add_mul_mod_self_left]
    exact Nat.mod_eq_of_lt hx
  · rw [e0, Nat.add_mul_div_left _ _ hA, Nat.div_eq_of_lt hx, Nat.zero_add,
      Nat.add_mul_mod_self_left]
    exact Nat.mod_eq_of_lt hu
  · have hlow : x + A * u < A * B := by
      have h1 : A * (u + 1) = A * u + A := by ring
      have h2 : A * (u + 1) ≤ A * B := Nat.mul_le_mul_left A (by omega)
      omega
    have e4 : x + A * u + A * B * v = (x + A * u) + (A * B) * v := by ring
    rw [e4, Nat.add_mul_div_left _ _ hAB, Nat.div_eq_of_lt hlow, Nat.zero_add]

theorem litematicaLinearization (X Y Z x y z : Nat) (g : Nat → Nat → Nat → Nat)
    (hx : x < X) (hy : y < Y) (hz : z < Z) :
    litDecodePos X Y (x + X * y + X * Y * z) = ⟨(x : Nat), (y : Nat), (z : Nat)⟩ ∧
    (litEncodeStates g X Y Z).getD ((x * Z + z) * Y + y) 0 = g x y z := by
  constructor
  · obtain ⟨e1, e2, e3⟩ := decode3 X Y x y z hx hy
    unfold litDecodePos
    rw [e1, e2, e3]
  · exact litEncodeStates_getD g X Y Z x y z hx hy hz

/-- Witness for the amended claim C2 at size 2×3×5 and cell (1,2,3). -/
theorem litematicaLinearization_witness :
    litDecodePos 2 3 (1 + 2 * 2 + 2 * 3 * 3) = ⟨(1 : Nat), (2 : Nat), (3 : Nat)⟩ ∧
    (litEncodeStates gridC2 2 3 5).getD ((1 * 5 + 3) * 3 + 2) 0 = gridC2 1 2 3 :=
  litematicaLinearization 2 3 5 1 2 3 gridC2 (by decide) (by decide) (by decide)

/-- A `StandardUnit` (Go `StandardBlock`).  `type` is the Go `Type` field
("" for a plain block, "entity", "tile_entity", …); the `NBT` payload does
not affect the properties below and is omitted. -/
structure StandardBlock where
  type : String
  Position : Pos3
  State : Int
deriving DecidableEq, Repr

/-- The index-to-position computation of `convertWorldEditToStandard`:
`x := i % Width; z := (i / Width) % Length; y := i / (Width * Length)`. -/
def worldEditDecodePos (width length i : Nat) : Pos3 :=
  ⟨(i % width : Nat), (i / (width * length) : Nat), ((i / width) % length : Nat)⟩

/-- The `BlockData` scan of `convertWorldEditToStandard` (lines 609-638):
`for i := 0; i < len(BlockData) && i < totalVolume; i++`, with
`paletteIndex := int(BlockData[i])`, skipping palette index 0.  `BlockData`
bytes are embedded as `Nat`. -/
def convertWorldEditBlocks (blockData : List Nat) (width height length : Nat) :
    List StandardBlock :=
  (List.range (min blockData.length (width * height * length))).filterMap fun i =>
    if blockData.getD i 0 = 0 then none
    else some
      { type := "", Position := worldEditDecodePos width length i,
        State := (blockData.getD i 0 : Int) }

/-- The grid fill of `convertStandardToWorldEdit` (lines 1244-1267): a dense
W×H×L grid initialized to 0; each block whose (converted integer) position is
in bounds overwrites its cell with `block.State`, in list order. -/
def worldEditGrid (blocks : List StandardBlock) (width height length : Nat) :
    Int → Int → Int → Int :=
  blocks.foldl
    (fun grid b =>
      if 0 ≤ b.Position.X ∧ b.Position.X < (width : Int) ∧
          0 ≤ b.Position.Y ∧ b.Position.Y < (height : Int) ∧
          0 ≤ b.Position.Z ∧ b.Position.Z < (length : Int) then
        fun x y z =>
          if x = b.Position.X ∧ y = b.Position.Y ∧ z = b.Position.Z then b.State
          else grid x y z
      else grid)
    (fun _ _ _ => 0)

/-- The `BlockData` linearization loop of `convertStandardToWorldEdit`
(lines 1269-1287): `for y { for z { for x { blockData[index] =
byte(grid[x][y][z]); index++ } } }`.  `byte(v)` keeps the low 8 bits of the
Go int, i.e. `(v % 256).toNat` with the euclidean `%` on `Int`. -/
def worldEditBlockData (blocks : List StandardBlock) (width height length : Nat) :
    List Nat :=
  (List.range height).flatMap fun y =>
    (List.range length).flatMap fun z =>
      (List.range width).map fun x =>
        ((worldEditGrid blocks width height length (x : Nat) (y : Nat) (z : Nat)) % 256).toNat

theorem index_lt_volume (W H L x y z : Nat) (hx : x < W) (hy : y < H) (hz : z < L) :
    (y * L + z) * W + x < W * H * L := by
  have h1 : y * L + z < H * L := by
    have e : (y + 1) * L = y * L + L := by ring
    have h2 : (y + 1) * L ≤ H * L := Nat.mul_le_mul_right L (by omega)
    omega
  have h3 : (y * L + z + 1) * W ≤ H * L * W := Nat.mul_le_mul_right W (by omega)
  have e2 : (y * L + z + 1) * W = (y * L + z) * W + W := by ring
  have e3 : H * L * W = W * H * L := by ring
  omega

theorem worldEditBlockData_getD (blocks : List StandardBlock)
    (W H L x y z : Nat) (hx : x < W) (hy : y < H) (hz : z < L) :
    (worldEditBlockData blocks W H L).getD ((y * L + z) * W + x) 0 =
      ((worldEditGrid blocks W H L x y z) % 256).toNat := by
  unfold worldEditBlockData
  have hidx : (y * L + z) * W + x = y * (L * W) + (z * W + x) := by ring
  have hinnerlen : ∀ w : Nat,
      ((List.range L).flatMap fun zz =>
        (List.range W).map fun xx =>
          ((worldEditGrid blocks W H L (xx : Nat) (w : Nat) (zz : Nat)) % 256).toNat).length =
        L * W := by
    intro w
    rw [List.length_flatMap]
    have hmc : (List.map
        (List.length ∘ fun zz => (List.range W).map fun xx =>
          ((worldEditGrid blocks W H L (xx : Nat) (w : Nat) (zz : Nat)) % 256).toNat)
        (List.range L)) =
        List.map (fun _ => W) (List.range L) := by
      apply List.map_congr_left
      intro zz _
      simp
    rw [hmc, List.map_const']
    simp [List.sum_replicate, Nat.mul_comm]
  have hzw : z * W + x < L * W := by
    have h0 : (z + 1) * W = z * W + W := by ring
    have h2 : (z + 1) * W ≤ L * W := Nat.mul_le_mul_right W (by omega)
    omega
  rw [hidx, range_flatMap_uniform_getD _ (L * W) H hinnerlen y (z * W + x) hy hzw,
    range_flatMap_uniform_getD _ W L (fun _ => by simp) z x hz hx,
    range_map_getD _ W x hx]

/-- Claim C3: in the WorldEdit-shaped codec, cell (x,y,z) corresponds to
linear index i = (y*length + z)*width + x with one byte per cell: the decode
direction maps index i back to exactly (x,y,z) and materializes byte i as the
palette index of the block at that cell (when nonzero), and the encode
direction writes the grid value of cell (x,y,z) — the palette index of the
block placed there, as a byte — into byte i of BlockData, for every in-bounds
cell. -/
theorem worldEditCodec (width height length x y z : Nat) (blockData : List Nat)
    (blocks : List StandardBlock) (hx : x < width) (hy : y < height) (hz : z < length)
    (hlen : (y * length + z) * width + x < blockData.length)
    (hnz : blockData.getD ((y * length + z) * width + x) 0 ≠ 0) :
    worldEditDecodePos width length ((y * length + z) * width + x) =
      ⟨(x : Nat), (y : Nat), (z : Nat)⟩ ∧
    ({ type := "", Position := ⟨(x : Nat), (y : Nat), (z : Nat)⟩,
        State := (blockData.getD ((y * length + z) * width + x) 0 : Int) } : StandardBlock) ∈
      convertWorldEditBlocks blockData width height length ∧
    (worldEditBlockData blocks width height length).getD ((y * length + z) * width + x) 0 =
      ((worldEditGrid blocks width height length x y z) % 256).toNat := by
  have hpos : worldEditDecodePos width length ((y * length + z) * width + x) =
      ⟨(x : Nat), (y : Nat), (z : Nat)⟩ := by
    have hidx : (y * length + z) * width + x =
        x + width * z + width * length * y := by ring
    obtain ⟨e1, e2, e3⟩ := decode3 width length x z y hx hz
    unfold worldEditDecodePos
    rw [hidx, e1, e2, e3]
  refine ⟨hpos, ?_, worldEditBlockData_getD blocks width height length x y z hx hy hz⟩
  refine List.mem_filterMap.mpr ⟨(y * length + z) * width + x, ?_, ?_⟩
  · refine List.mem_range.mpr (Nat.lt_min.mpr ⟨hlen, ?_⟩)
    exact index_lt_volume width height length x y z hx hy hz
  · rw [if_neg hnz, hpos]

/-- Witness for claim C3 at a 2×2×2 grid, cell (1,0,1), index 3. -/
theorem worldEditCodec_witness :
    worldEditDecodePos 2 2 ((0 * 2 + 1) * 2 + 1) = ⟨(1 : Nat), (0 : Nat), (1 : Nat)⟩ ∧
    ({ type := "", Position := ⟨(1 : Nat), (0 : Nat), (1 : Nat)⟩,
        State := (([0, 0, 0, 7].getD ((0 * 2 + 1) * 2 + 1) 0 : Nat) : Int) } :
        StandardBlock) ∈ convertWorldEditBlocks [0, 0, 0, 7] 2 2 2 ∧
    (worldEditBlockData [{ type := "", Position := ⟨1, 0, 1⟩, State := 5 }] 2 2 2).getD
        ((0 * 2 + 1) * 2 + 1) 0 =
      ((worldEditGrid [{ type := "", Position := ⟨1, 0, 1⟩, State := 5 }] 2 2 2 1 0 1) %
          256).toNat :=
  worldEditCodec 2 2 2 1 0 1 [0, 0, 0, 7]
    [{ type := "", Position := ⟨1, 0, 1⟩, State := 5 }]
    (by decide) (by decide) (by decide) (by decide) (by decide)

/-- The `BlockStates` scan of `convertLitematicaToStandard` (lines 350-382):
`for i := 0; i < totalVolume && i < len(BlockStates); i++`, looking the entry
up with `getPaletteIndex` (numeric entry, else skip), skipping palette
index 0.  An entry is `none` when `getPaletteIndex` fails on it (non-numeric
`interface{}` value); `totalVolume` is the `Int.toNat` of the region volume. -/
def convertLitematicaBlocks (blockStates : List (Option Int)) (sizeX sizeY : Nat)
    (totalVolume : Nat) : List StandardBlock :=
  (List.range (min totalVolume blockStates.length)).filterMap fun i =>
    match blockStates.getD i none with
    | none => none
    | some paletteIndex =>
      if paletteIndex = 0 then none
      else some { type := "", Position := litDecodePos sizeX sizeY i, State := paletteIndex }

/-- One extracted entry of the Create `blocks` list: the position from
`extractBlockPosition` and the state from `extractBlockState` (both default
to 0 for missing or ill-typed fields). -/
structure CreateBlockEntry where
  pos : Pos3
  state : Int
deriving DecidableEq, Repr

/-- The block materialization loop of `convertCreateToStandard` (lines
795-827): every successfully extracted block map becomes a StandardBlock at
`pos + sf.Position` carrying `State = state` unconditionally — there is no
skip of palette index 0 on this path.  Entries that fail map extraction are
skipped by the source and are not represented in the input list. -/
def convertCreateBlocks (blocks : List CreateBlockEntry) (origin : Pos3) :
    List StandardBlock :=
  blocks.map fun b =>
    { type := "", Position := ⟨b.pos.X + origin.X, b.pos.Y + origin.Y, b.pos.Z + origin.Z⟩,
      State := b.state }

/-- Claim C4 counterexample: a Create-shaped input whose `blocks` list holds
one entry with state 0 (air).  `convertCreateBlocks` materializes it as a
block-kind StandardBlock carrying palette index 0 instead of skipping it. -/
theorem createMaterializesAir_counterexample :
    convertCreateBlocks [⟨⟨0, 0, 0⟩, 0⟩] ⟨0, 0, 0⟩ =
      [{ type := "", Position := ⟨0, 0, 0⟩, State := 0 }] := by decide

/-- Claim C4 (amended): the Litematica-shaped and WorldEdit-shaped decode
paths never materialize palette index 0 as a block unit (cells with index 0
are skipped); the Create-shaped path copies every extracted `blocks` entry,
including entries with state 0. -/
theorem airSkippedLitematicaWorldEdit (blockStates : List (Option Int))
    (sizeX sizeY totalVolume : Nat) (blockData : List Nat)
    (width height length : Nat) (b : StandardBlock)
    (hb : b ∈ convertLitematicaBlocks blockStates sizeX sizeY totalVolume ∨
      b ∈ convertWorldEditBlocks blockData width height length) :
    b.State ≠ 0 := by
  rcases hb with hb | hb
  · obtain ⟨i, _, hf⟩ := List.mem_filterMap.mp hb
    split at hf
    · cases hf
    · rename_i paletteIndex heq
      by_cases hz : paletteIndex = 0
      · rw [if_pos hz] at hf
        cases hf
      · rw [if_neg hz] at hf
        cases hf
        simpa using hz
  · obtain ⟨i, _, hf⟩ := List.mem_filterMap.mp hb
    revert hf
    by_cases hz : blockData.getD i 0 = 0
    · rw [if_pos hz]
      intro hf
      cases hf
    · rw [if_neg hz]
      intro hf
      cases hf
      simpa using hz

/-- Witness for the amended claim C4: a decoded Litematica block. -/
theorem airSkippedLitematicaWorldEdit_witness :
    ({ type := "", Position := litDecodePos 1 1 0, State := 2 } : StandardBlock).State ≠ 0 :=
  airSkippedLitematicaWorldEdit [some 2] 1 1 1 [] 0 0 0 _ (Or.inl (by decide))

/-- The palette conversion of `convertLitematicaToStandard` (lines 306-317):
`sf.Palette[i] = StandardPalette{Name: BlockStatePalette[i].Name, ...}` — a
mapping whose keys are exactly the slice indices `0 .. len-1`, embedded as an
association list of (key, name) pairs. -/
def litStdPalette (names : List String) : List (Int × String) :=
  (List.range names.length).map fun i => (((i : Nat) : Int), names.getD i "")

/-- The palette/blocks core of `convertLitematicaToStandard` including the
tile-entity fallback (lines 385-422): when the dense grid produced no blocks
and tile entities exist, the code sets `paletteIndex := 1`, inserts
`sf.Palette[len(sf.Palette)] = {"minecraft:stone"}` when `len(sf.Palette) <= 1`,
and materializes one synthetic block with `State = paletteIndex` per tile
entity.  The later tile-entity association and entity conversion only attach
NBT payloads or append non-block units and are omitted. -/
def convertLitematicaCore (names : List String) (blockStates : List (Option Int))
    (sizeX sizeY totalVolume : Nat) (tileEntities : List Pos3) :
    List (Int × String) × List StandardBlock :=
  let palette := litStdPalette names
  let blocks := convertLitematicaBlocks blockStates sizeX sizeY totalVolume
  if blocks.length = 0 ∧ tileEntities.length ≠ 0 then
    let palette' :=
      if palette.length ≤ 1 then palette ++ [((palette.length : Int), "minecraft:stone")]
      else palette
    (palette', tileEntities.map fun p => { type := "", Position := p, State := 1 })
  else (palette, blocks)

/-- Claim C5 evaluated at the failing input (code bug): a Litematica region
with an empty `BlockStatePalette`, an empty `BlockStates` array and one tile
entity at (0,0,0).  The fallback inserts the placeholder palette entry at key
`len(sf.Palette)` = 0 yet materializes the synthetic block with palette
index 1, so the block's palette index is not a key of the resulting palette,
contradicting the invariant the claim states. -/
theorem litematicaFallback_missingKey :
    convertLitematicaCore [] [] 1 1 1 [⟨0, 0, 0⟩] =
      ([((0 : Int), "minecraft:stone")],
        [{ type := "", Position := ⟨0, 0, 0⟩, State := 1 }]) ∧
    (1 : Int) ∉ (convertLitematicaCore [] [] 1 1 1 [⟨0, 0, 0⟩]).1.map Prod.fst := by
  refine ⟨by decide, by decide⟩

/-- Outcome of the decompression dispatch of `decodeAny`: which codec is
selected and which bytes are handed to it.  Construction of the decompressor
and NBT decoding are external collaborators and not modelled. -/
inductive SniffResult where
  | gzip (payload : List Nat)
  | zlib (payload : List Nat)
  | raw (payload : List Nat)
  | emptyErr
deriving DecidableEq, Repr

/-- The compression sniffing of `decodeAny` in decoder.go (lines 222-251):
empty input is the "empty data" error; for `len(data) > 1` the marker bytes
`1`/`2` select gzip/zlib on `data[1:]`, the gzip magic `0x1f 0x8b` and the
zlib magic `0x78 {0x01,0x9c,0xda}` select the codec on the whole blob, and
anything else — including every single-byte input — is taken as raw. -/
def decodeAnySniff (data : List Nat) : SniffResult :=
  if data.length = 0 then .emptyErr
  else if data.length > 1 then
    if data.getD 0 0 = 1 then .gzip data.tail
    else if data.getD 0 0 = 2 then .zlib data.tail
    else if data.getD 0 0 = 0x1f ∧ data.getD 1 0 = 0x8b then .gzip data
    else if data.getD 0 0 = 0x78 ∧
        (data.getD 1 0 = 0x01 ∨ data.getD 1 0 = 0x9c ∨ data.getD 1 0 = 0xda) then .zlib data
    else .raw data
  else .raw data

/-- First-match rule application: try each (guard, action) pair in order and
fall through to raw. -/
def applyFirstRule (rules : List ((List Nat → Bool) × (List Nat → SniffResult)))
    (data : List Nat) : SniffResult :=
  match rules with
  | [] => .raw data
  | (p, act) :: rest => if p data then act data else applyFirstRule rest data

/-- Modelled from the spec §4.1: the five sniffing rules in priority order
(rule 5, raw, is the fall-through of `applyFirstRule`). -/
def specSniffRules : List ((List Nat → Bool) × (List Nat → SniffResult)) :=
  [(fun d => d.getD 0 0 == 1, fun d => .gzip d.tail),
   (fun d => d.getD 0 0 == 2, fun d => .zlib d.tail),
   (fun d => d.getD 0 0 == 0x1f && d.getD 1 0 == 0x8b, fun d => .gzip d),
   (fun d => d.getD 0 0 == 0x78 &&
      (d.getD 1 0 == 0x01 || d.getD 1 0 == 0x9c || d.getD 1 0 == 0xda), fun d => .zlib d)]

/-- Modelled from the spec §4.1: apply exactly the first matching rule in
priority order; zero-length input is a decode error; single-byte input is
treated as raw since no two-byte magic check is possible. -/
def specSniff (data : List Nat) : SniffResult :=
  if data.length = 0 then .emptyErr
  else if data.length = 1 then .raw data
  else applyFirstRule specSniffRules data

/-- Claim C6: the compression sniffer of `decodeAny` applies exactly the
first matching rule in the spec's priority order — marker byte 1 (gzip on
the remainder), marker byte 2 (zlib on the remainder), gzip magic 0x1f 0x8b
(gzip on the whole blob), zlib magic 0x78 with 0x01/0x9c/0xda (zlib on the
whole blob), otherwise raw — and treats single-byte input as raw. -/
theorem decodeAnySniff_eq_specSniff (data : List Nat) :
    decodeAnySniff data = specSniff data := by
  unfold decodeAnySniff specSniff applyFirstRule specSniffRules
  by_cases h0 : data.length = 0
  · simp [h0]
  · by_cases h1 : data.length = 1
    · have hg : ¬ data.length > 1 := by omega
      simp [h0, h1, hg]
    · have hg : data.length > 1 := by omega
      simp only [if_neg h0, if_pos hg, if_neg h1]
      rcases data with _ | ⟨a, data'⟩
      · simp at h0
      rcases data' with _ | ⟨b, rest⟩
      · simp at h1
      by_cases c1 : a = 1
      · simp [applyFirstRule, c1]
      · by_cases c2 : a = 2
        · simp [applyFirstRule, c1, c2]
        · by_cases c3a : a = 0x1f
          · by_cases c3b : b = 0x8b
            · simp [applyFirstRule, c1, c2, c3a, c3b]
            · simp [applyFirstRule, c1, c2, c3a, c3b]
          · by_cases c4a : a = 0x78
            · by_cases c4b1 : b = 0x01
              · simp [applyFirstRule, c1, c2, c3a, c4a, c4b1]
              · by_cases c4b2 : b = 0x9c
                · simp [applyFirstRule, c1, c2, c3a, c4a, c4b1, c4b2]
                · by_cases c4b3 : b = 0xda
                  · simp [applyFirstRule, c1, c2, c3a, c4a, c4b1, c4b2, c4b3]
                  · simp [applyFirstRule, c1, c2, c3a, c4a, c4b1, c4b2, c4b3]
            · simp [applyFirstRule, c1, c2, c3a, c4a]

/-- Claim C7: zero-length input to `decodeAny` yields exactly the explicit
"empty data" error, and no nonempty input ever produces that error (so no
path returns a nil/empty success result for empty input: the error is
returned before any codec or NBT decoding runs). -/
theorem decodeAnySniff_empty (data : List Nat) (hdata : data ≠ []) :
    decodeAnySniff [] = SniffResult.emptyErr ∧
      decodeAnySniff data ≠ SniffResult.emptyErr := by
  refine ⟨rfl, ?_⟩
  have h0 : ¬ data.length = 0 := by simpa using hdata
  unfold decodeAnySniff
  rw [if_neg h0]
  split_ifs <;> simp

/-- Witness for claim C7 at the one-byte input `[5]`. -/
theorem decodeAnySniff_empty_witness :
    decodeAnySniff [] = SniffResult.emptyErr ∧
      decodeAnySniff [5] ≠ SniffResult.emptyErr :=
  decodeAnySniff_empty [5] (by decide)

/-- The per-container sector loop of `decodeWorldSave` (part_000 lines
353-380): for each coordinate of the fixed 32×32 sector grid, skip absent
sectors, skip failed reads (logged), skip empty data, skip failed decodes
(logged), and otherwise store the decoded chunk under the key
`fmt.Sprintf("chunk_%d_%d", i, j)`.  The region reader and `decodeAny` are
abstracted as the functions `existSector`, `readSector` (`none` = read
error) and `decodeSector` (`none` = decode error). -/
def decodeWorldSaveChunks {α : Type} (existSector : Nat → Nat → Bool)
    (readSector : Nat → Nat → Option (List Nat)) (decodeSector : List Nat → Option α) :
    List (String × α) :=
  (List.range 32).flatMap fun i =>
    (List.range 32).flatMap fun j =>
      if existSector i j then
        match readSector i j with
        | none => []
        | some data =>
          if data.length = 0 then []
          else
            match decodeSector data with
            | none => []
            | some chunk => [("chunk_" ++ toString i ++ "_" ++ toString j, chunk)]
      else []

/-- The sector-occupancy pattern of the spec's scenario: exactly (0,0) and
(5,7) occupied. -/
def existC8 (i j : Nat) : Bool := (i == 0 && j == 0) || (i == 5 && j == 7)

/-- Sector bytes for the scenario: every occupied sector reads successfully. -/
def readC8 (i j : Nat) : Option (List Nat) := some [i + j]

/-- Scenario decoder: sector (5,7)'s bytes decode, sector (0,0)'s do not. -/
def decC8 (d : List Nat) : Option Nat := if d = [12] then some 42 else none

/-- Claim C8 counterexample: with exactly sectors (0,0) and (5,7) occupied,
both reads succeeding and (0,0)'s decode failing, the container yields only
the single entry "chunk_5_7" — a failed sector produces no chunk entry, so
the output does not hold two entries "regardless of decode success/failure". -/
theorem decodeWorldSaveChunks_counterexample :
    decodeWorldSaveChunks existC8 readC8 decC8 = [("chunk_5_7", 42)] ∧
      (decodeWorldSaveChunks existC8 readC8 decC8).length ≠ 2 := by
  refine ⟨by decide, by decide⟩

/-- Claim C8 (amended): the container decode produces exactly one chunk entry
per occupied sector whose read succeeds with nonempty bytes and whose decode
succeeds, keyed "chunk_i_j"; a failed sector contributes no entry but does
not prevent other sectors from being processed nor fail the container decode
(the result is always a total list over the 32×32 grid). -/
theorem decodeWorldSaveChunks_mem {α : Type} (existSector : Nat → Nat → Bool)
    (readSector : Nat → Nat → Option (List Nat)) (decodeSector : List Nat → Option α)
    (key : String) (chunk : α) :
    (key, chunk) ∈ decodeWorldSaveChunks existSector readSector decodeSector ↔
      ∃ i j, i < 32 ∧ j < 32 ∧ existSector i j = true ∧
        ∃ data, readSector i j = some data ∧ data.length ≠ 0 ∧
          decodeSector data = some chunk ∧
          key = "chunk_" ++ toString i ++ "_" ++ toString j := by
  unfold decodeWorldSaveChunks
  constructor
  · intro h
    obtain ⟨i, hi, h⟩ := List.mem_flatMap.mp h
    obtain ⟨j, hj, h⟩ := List.mem_flatMap.mp h
    refine ⟨i, j, List.mem_range.mp hi, List.mem_range.mp hj, ?_⟩
    by_cases hex : existSector i j = true
    · rw [if_pos hex] at h
      rcases hrd : readSector i j with _ | data
      · rw [hrd] at h
        simp at h
      · rw [hrd] at h
        simp only [] at h
        by_cases hne : data.length = 0
        · rw [if_pos hne] at h
          simp at h
        · rw [if_neg hne] at h
          rcases hdec : decodeSector data with _ | chunk'
          · rw [hdec] at h
            simp at h
          · rw [hdec] at h
            simp only [] at h
            have hp := List.mem_singleton.mp h
            injection hp with hkey hchunk
            refine ⟨hex, data, rfl, hne, ?_, hkey⟩
            rw [hdec, hchunk]
    · rw [if_neg hex] at h
      cases h
  · rintro ⟨i, j, hi, hj, hex, data, hrd, hne, hdec, hkey⟩
    refine List.mem_flatMap.mpr ⟨i, List.mem_range.mpr hi, ?_⟩
    refine List.mem_flatMap.mpr ⟨j, List.mem_range.mpr hj, ?_⟩
    rw [if_pos hex, hrd]
    simp only []
    rw [if_neg hne, hdec]
    subst hkey
    exact List.mem_singleton.mpr rfl

/-- One schematic block as `Decode` (decoder.go) consumes it: the palette
state, and — when the block has a decodable non-nil NBT payload — the
payload's (Item.ID, Item.Count). -/
structure GoBlock where
  state : Int
  item : Option (String × Int)
deriving DecidableEq, Repr

/-- `paletteSlice` of `Decode` (decoder.go lines 103-114): one (Name, Count)
pair per palette entry, where `paletteSlice[tag.State].Count++` for every
block whose state is in range. -/
def goPaletteSlice (palette : List String) (blocks : List GoBlock) :
    List (String × Int) :=
  let counts := blocks.foldl
    (fun counts b =>
      if 0 ≤ b.state ∧ b.state < (palette.length : Int) then
        counts.set b.state.toNat (counts.getD b.state.toNat 0 + 1)
      else counts)
    (List.replicate palette.length (0 : Int))
  (List.range palette.length).map fun i => (palette.getD i "", counts.getD i 0)

/-- `nbtSlice` of `Decode` (decoder.go lines 116-128): blocks with a
decodable payload whose Item.ID is nonempty contribute (Item.ID, Item.Count). -/
def goNbtSlice (blocks : List GoBlock) : List (String × Int) :=
  blocks.filterMap fun b =>
    match b.item with
    | none => none
    | some it => if it.1 = "" then none else some it

/-- The Go map update `blockCounts[name] += count` on an association list. -/
def upsert (m : List (String × Int)) (k : String) (v : Int) : List (String × Int) :=
  match m with
  | [] => [(k, v)]
  | (k', v') :: rest => if k' = k then (k', v' + v) :: rest else (k', v') :: upsert rest k v

/-- The `blockCounts` map of `Decode` (decoder.go lines 131-146): palette
entries then payload entries, skipping empty names.  The Go map's entry set
is modelled as an association list in key-insertion order; the map itself is
unordered. -/
def goBlockCounts (palette : List String) (blocks : List GoBlock) :
    List (String × Int) :=
  let m1 := (goPaletteSlice palette blocks).foldl
    (fun m p => if p.1 ≠ "" then upsert m p.1 p.2 else m) []
  (goNbtSlice blocks).foldl (fun m p => if p.1 ≠ "" then upsert m p.1 p.2 else m) m1

/-- The final loop of `Decode` (decoder.go lines 148-155) ranges over the Go
map `blockCounts` and copies each entry into the result.  Go's map iteration
order is unspecified, so a run of `Decode` may return any permutation of the
map's entries: `goDecodeResult palette blocks result` says `result` is a
possible output of `Decode`. -/
def goDecodeResult (palette : List String) (blocks : List GoBlock)
    (result : List (String × Int)) : Prop :=
  result.Perm (goBlockCounts palette blocks)

/-- Total count credited to one name in a (name, count) list; invariant
under permutation of the list. -/
def countFor (l : List (String × Int)) (name : String) : Int :=
  (l.map fun p => if p.1 = name then p.2 else 0).sum

/-- Claim C9 counterexample: for the palette ["a","b"] with one block of each
state and no payloads, both ["a"-first] and ["b"-first] orders are possible
outputs of `Decode` (the result is read out of a Go map, whose iteration
order is unspecified), so the output is not determined as the
insertion-order-of-first-occurrence list and need not be identical across
repeated runs. -/
theorem goDecodeOrder_counterexample :
    goDecodeResult ["a", "b"] [⟨0, none⟩, ⟨1, none⟩] [("a", 1), ("b", 1)] ∧
    goDecodeResult ["a", "b"] [⟨0, none⟩, ⟨1, none⟩] [("b", 1), ("a", 1)] ∧
    ([("b", 1), ("a", 1)] : List (String × Int)) ≠ [("a", 1), ("b", 1)] := by
  refine ⟨?_, ?_, by decide⟩
  · unfold goDecodeResult
    decide
  · unfold goDecodeResult
    decide

theorem countFor_upsert (m : List (String × Int)) (k : String) (v : Int)
    (name : String) :
    countFor (upsert m k v) name = countFor m name + (if k = name then v else 0) := by
  induction m with
  | nil => simp [upsert, countFor]
  | cons p rest ih =>
    rw [upsert]
    by_cases hk : p.1 = k
    · rw [if_pos hk]
      simp only [countFor, List.map_cons, List.sum_cons] at *
      by_cases hn : k = name
      · rw [← hn, hk]
        simp
        ring
      · have hpn : ¬ p.1 = name := by rw [hk]; exact hn
        simp [hn, hpn]
    · rw [if_neg hk]
      simp only [countFor, List.map_cons, List.sum_cons] at *
      rw [ih]
      ring
theorem countFor_foldl_upsert (l : List (String × Int)) (m : List (String × Int))
    (name : String) (hname : name ≠ "") :
    countFor (l.foldl (fun m p => if p.1 ≠ "" then upsert m p.1 p.2 else m) m) name =
      countFor m name + countFor l name := by
  induction l generalizing m with
  | nil => simp [countFor]
  | cons p rest ih =>
    rw [List.foldl_cons, ih]
    by_cases hp : p.1 = ""
    · have hpn : ¬ p.1 = name := by rw [hp]; exact fun h => hname h.symm
      rw [if_neg (by simp [hp])]
      simp only [countFor, List.map_cons, List.sum_cons]
      rw [if_neg hpn]
      ring
    · rw [if_pos hp, countFor_upsert]
      simp only [countFor, List.map_cons, List.sum_cons]
      ring

/-- Claim C9 (amended): any possible output of `Decode` is a permutation of
the aggregated (name, count) map entries, and the aggregation is correct —
for every nonempty name the total count credited equals the palette-grid
total plus the payload total — but the order of the returned list is the Go
map's unspecified iteration order, not insertion order of first occurrence,
and is not guaranteed identical across repeated runs. -/
theorem goDecode_content (palette : List String) (blocks : List GoBlock)
    (result : List (String × Int)) (hres : goDecodeResult palette blocks result)
    (name : String) (hname : name ≠ "") :
    countFor result name =
      countFor (goPaletteSlice palette blocks) name + countFor (goNbtSlice blocks) name := by
  have h1 : countFor result name = countFor (goBlockCounts palette blocks) name := by
    unfold goDecodeResult at hres
    unfold countFor
    exact (hres.map _).sum_eq
  rw [h1]
  unfold goBlockCounts
  rw [countFor_foldl_upsert _ _ _ hname, countFor_foldl_upsert _ _ _ hname]
  simp [countFor]

/-- Witness for the amended claim C9: a reordered run over palette ["a","b"]
still credits "a" with exactly its one grid occurrence. -/
theorem goDecode_content_witness :
    countFor [("b", 1), ("a", 1)] "a" =
      countFor (goPaletteSlice ["a", "b"] [⟨0, none⟩, ⟨1, none⟩]) "a" +
        countFor (goNbtSlice [⟨0, none⟩, ⟨1, none⟩]) "a" :=
  goDecode_content ["a", "b"] [⟨0, none⟩, ⟨1, none⟩] [("b", 1), ("a", 1)]
    (by unfold goDecodeResult; decide) "a" (by decide)

/-- The `abs` helper of the source (part_004 lines 525-531). -/
def goAbs (x : Int) : Int := if x < 0 then -x else x

/-- A native `Coordinate` (three Go `int` fields), e.g. a Litematica region's
`Size`. -/
structure Coordinate where
  X : Int
  Y : Int
  Z : Int
deriving DecidableEq, Repr

/-- The size normalization of `convertLitematicaToStandard` (lines 296-300):
`sf.Size.X = region.Size.X; sf.Size.Y = abs(region.Size.Y);
sf.Size.Z = region.Size.Z`. -/
def litematicaStdSize (regionSize : Coordinate) : StandardSize :=
  ⟨regionSize.X, goAbs regionSize.Y, regionSize.Z⟩

/-- Claim C10 counterexample: a Litematica region of native size (-2, -3, 4)
normalizes to canonical size (-2, 3, 4): the X component stays negative, so
not all three canonical size components are non-negative. -/
theorem litematicaStdSize_counterexample :
    litematicaStdSize ⟨-2, -3, 4⟩ = ⟨-2, 3, 4⟩ ∧
      (litematicaStdSize ⟨-2, -3, 4⟩).X < 0 := by
  refine ⟨by decide, by decide⟩

/-- Claim C10 (amended): `convertLitematicaToStandard` sets the canonical
Size.Y to the absolute value of the native region Size.Y (hence Size.Y is
always non-negative), while Size.X and Size.Z are copied verbatim and are
non-negative only when the native values are. -/
theorem litematicaStdSize_normalization (s : Coordinate) :
    (litematicaStdSize s).Y = |s.Y| ∧ 0 ≤ (litematicaStdSize s).Y ∧
      (litematicaStdSize s).X = s.X ∧ (litematicaStdSize s).Z = s.Z := by
  unfold litematicaStdSize goAbs
  by_cases h : s.Y < 0
  · simp only [if_pos h]
    refine ⟨(abs_of_neg h).symm, by omega, trivial, trivial⟩
  · simp only [if_neg h]
    refine ⟨(abs_of_nonneg (by omega)).symm, by omega, trivial, trivial⟩
